import Mathlib

/-!
Verification of the bucketed batch sampler of `src/models/data_loader.py`.

The development shallowly embeds the sampler classes of `data_loader.py`
(`identity`, `SortedSampler`, `BucketBatchSampler`) together with the
behaviour of the `torch.utils.data.sampler` classes they are built on
(`SequentialSampler`, `RandomSampler`, `BatchSampler`, `SubsetRandomSampler`).

Conventions of the embedding:
* datasets are `List α`; indices are `Nat`;
* Python's `sorted(..., key=...)` is a stable ascending sort; it is modelled
  by `List.insertionSort`, which is the stable sort on lists (Mathlib proves
  its stability; any two stable sorts agree extensionally);
* randomness (`RandomSampler`, `SubsetRandomSampler` both draw `torch.randperm`)
  is modelled by passing the drawn permutations explicitly and quantifying over
  all valid draws (`OuterDraw`, `ChunkDraw`);
* `ValueError` raised in a constructor is modelled by `Except.error`:
  `torch.utils.data.sampler.BatchSampler.__init__` raises unless its
  `batch_size` argument is a positive integer.
-/

namespace DataLoader

/-- Definition of `identity` (data_loader.py line 17): returns its argument. -/
def identity (x : α) : α := x

namespace Torch

/-- Fuel-driven worker for `chunkList`; the fuel only forces termination and
is always instantiated with the length of the list. -/
def chunkListAux (bs : Nat) : Nat → List α → List (List α)
  | _, [] => []
  | 0, _ :: _ => []
  | fuel + 1, a :: l => ((a :: l).take bs) :: chunkListAux bs fuel ((a :: l).drop bs)

/-- Grouping behaviour of `torch.utils.data.sampler.BatchSampler.__iter__`
with `drop_last=False`: consecutive groups of `bs` elements, the final group
possibly shorter.  (Meaningful for `bs > 0`; the constructor rejects other
values.) -/
def chunkList (bs : Nat) (l : List α) : List (List α) :=
  chunkListAux bs l.length l

/-- Behaviour of `torch.utils.data.sampler.BatchSampler.__iter__`: groups of
`bs` elements; when `dropLast` is set the trailing group is omitted unless it
is full. -/
def batchSampler (bs : Nat) (dropLast : Bool) (l : List α) : List (List α) :=
  if dropLast then (chunkList bs l).filter (fun c => c.length == bs)
  else chunkList bs l

/-- Length reported by `torch.utils.data.sampler.BatchSampler.__len__`. -/
def batchSamplerLen (n bs : Nat) (dropLast : Bool) : Nat :=
  if dropLast then n / bs else (n + bs - 1) / bs

/-- Behaviour of `torch.utils.data.sampler.SequentialSampler.__iter__`:
indices `0, 1, ..., n-1` in order. -/
def sequentialSampler (n : Nat) : List Nat := List.range n

/-- Behaviour of `torch.utils.data.sampler.SubsetRandomSampler.__iter__`:
yields `indices[i]` for `i` in a freshly drawn `torch.randperm`; the drawn
permutation `σ` is passed explicitly. -/
def subsetRandomSampler (σ : List Nat) (indices : List α) : List α :=
  σ.filterMap (fun i => indices[i]?)

end Torch

namespace SortedSampler

/-- Computation of `SortedSampler.__init__` (data_loader.py lines 61-67): pair
every position with the sort key of its row, stably sort the pairs by the key
(Python's `sorted` with `key=lambda r: r[1]` is a stable ascending sort), and
keep the positions. -/
def sortedIndexes [LinearOrder β] (key : α → β) (data : List α) : List Nat :=
  let zip1 := data.enum.map (fun p => (p.1, key p.2))
  let zip2 := zip1.insertionSort (fun a b => a.2 ≤ b.2)
  zip2.map (fun p => p.1)

/-- Length reported by `SortedSampler.__len__` (data_loader.py lines 72-73). -/
def numSamples (data : List α) : Nat := data.length

end SortedSampler

/-- State held by a successfully constructed `BucketBatchSampler`
(data_loader.py lines 107-130): the dataset, the sort key, the validated
batch size and bucket size, and the `drop_last` / `shuffle` flags. -/
structure BucketBatchSampler (α : Type u) (β : Type v) where
  dataset : List α
  sort_key : α → β
  batch_size : Nat
  drop_last : Bool
  shuffle : Bool
  bucket_size : Nat

namespace BucketBatchSampler

/-- Embedding of `BucketBatchSampler.__init__` (data_loader.py lines 107-130).
The outer sampler (`RandomSampler` or `SequentialSampler`) has length
`len(dataset)`.  `super().__init__(sampler, batch_size, drop_last)` raises
`ValueError` unless `batch_size` is a positive integer; the bucket sampler
`BatchSampler(sampler, min(batch_size * bucket_size_multiplier, len(sampler)), False)`
raises `ValueError` unless that minimum is a positive integer. -/
def init (dataset : List α) (batch_size : Int) (sort_key : α → β)
    (drop_last : Bool) (shuffle : Bool) (bucket_size_multiplier : Int) :
    Except String (BucketBatchSampler α β) :=
  if batch_size ≤ 0 then
    Except.error "batch_size should be a positive integer value"
  else if min (batch_size * bucket_size_multiplier) (dataset.length : Int) ≤ 0 then
    Except.error "batch_size should be a positive integer value"
  else
    Except.ok ⟨dataset, sort_key, batch_size.toNat, drop_last, shuffle,
      (min (batch_size * bucket_size_multiplier) (dataset.length : Int)).toNat⟩

/-- Buckets of one pass (data_loader.py line 133): the outer permutation cut
into consecutive buckets of `bucket_size` by the bucket `BatchSampler`
(constructed with `drop_last=False`). -/
def buckets (s : BucketBatchSampler α β) (outerPerm : List Nat) : List (List Nat) :=
  Torch.chunkList s.bucket_size outerPerm

/-- Chunks produced inside one bucket (data_loader.py lines 134-138): a
`SortedSampler` over the items the bucket references produces local positions
sorted by the sort key, and a `BatchSampler(sorted_sampler, batch_size,
drop_last)` cuts them into chunks. -/
def bucketChunks [LinearOrder β] [Inhabited α] (s : BucketBatchSampler α β)
    (bucket : List Nat) : List (List Nat) :=
  Torch.batchSampler s.batch_size s.drop_last
    (SortedSampler.sortedIndexes s.sort_key (bucket.map (fun i => s.dataset.getD i default)))

/-- One full pass of `BucketBatchSampler.__iter__` (data_loader.py lines
132-139) at the level of index batches: for every bucket, the chunks of the
bucket's sorted view are emitted in the order drawn by the bucket's
`SubsetRandomSampler`, and each chunk of local positions is resolved to the
global indices `bucket[i]`.  `chunkPerms` lists the permutation drawn by the
`SubsetRandomSampler` of each bucket. -/
def indexBatches [LinearOrder β] [Inhabited α] (s : BucketBatchSampler α β)
    (outerPerm : List Nat) (chunkPerms : List (List Nat)) : List (List Nat) :=
  ((s.buckets outerPerm).zip chunkPerms).flatMap (fun bp =>
    (Torch.subsetRandomSampler bp.2 (s.bucketChunks bp.1)).map
      (fun batch => batch.map (fun i => bp.1.getD i 0)))

/-- One full pass of `BucketBatchSampler.__iter__` at the level of collated
item batches (data_loader.py line 139): every emitted index batch is resolved
to its items and handed to `collate_fn`. -/
def iterate [LinearOrder β] [Inhabited α] (s : BucketBatchSampler α β)
    (collate_fn : List α → γ) (outerPerm : List Nat) (chunkPerms : List (List Nat)) :
    List γ :=
  (s.indexBatches outerPerm chunkPerms).map
    (fun batch => collate_fn (batch.map (fun i => s.dataset.getD i default)))

/-- Length reported by `BucketBatchSampler.__len__` (data_loader.py lines
141-145): `len(self.sampler) // batch_size` when `drop_last`, else
`math.ceil(len(self.sampler) / batch_size)`; `len(self.sampler)` is the
dataset length, and for `batch_size > 0` the real ceiling equals
`(N + batch_size - 1) / batch_size` in natural division. -/
def len (s : BucketBatchSampler α β) : Nat :=
  if s.drop_last then s.dataset.length / s.batch_size
  else (s.dataset.length + s.batch_size - 1) / s.batch_size

/-- Validity of the outer sampler's output for one pass: `RandomSampler`
(`shuffle=True`) yields some permutation of `range N`, `SequentialSampler`
(`shuffle=False`) yields exactly `range N`. -/
def OuterDraw (s : BucketBatchSampler α β) (p : List Nat) : Prop :=
  if s.shuffle then p.Perm (List.range s.dataset.length)
  else p = List.range s.dataset.length

/-- Validity of the per-bucket `SubsetRandomSampler` draws for one pass: one
permutation per bucket, each a permutation of the positions of that bucket's
chunk list. -/
def ChunkDraw [LinearOrder β] [Inhabited α] (s : BucketBatchSampler α β)
    (outerPerm : List Nat) (cps : List (List Nat)) : Prop :=
  List.Forall₂ (fun bucket σ => σ.Perm (List.range (s.bucketChunks bucket).length))
    (s.buckets outerPerm) cps

/-- Emission of one pass under the identity chunk-order draw in every bucket:
bucket by bucket, the chunks in their natural order.  Every valid pass is a
permutation of this list, bucket by bucket. -/
def canonBatches [LinearOrder β] [Inhabited α] (s : BucketBatchSampler α β)
    (outerPerm : List Nat) : List (List Nat) :=
  (s.buckets outerPerm).flatMap (fun b =>
    (s.bucketChunks b).map (fun batch => batch.map (fun i => b.getD i 0)))

end BucketBatchSampler

/-- Sort key of position `i` of a collection: the key of the item stored
there (total via the default element; the sampler only ever emits positions
inside the collection). -/
def keyAt [Inhabited α] (key : α → β) (data : List α) (i : Nat) : β :=
  key (data.getD i default)

/-! ### Helper lemmas about lists -/

theorem sublist_flatten {L₁ L₂ : List (List α)} (h : L₁.Sublist L₂) :
    L₁.flatten.Sublist L₂.flatten := by
  induction h with
  | slnil => exact List.Sublist.refl _
  | cons a _ ih =>
    rw [List.flatten_cons]
    exact ih.trans (List.sublist_append_right _ _)
  | cons₂ a _ ih =>
    rw [List.flatten_cons, List.flatten_cons]
    exact ih.append_left a

theorem subperm_nodup {l₁ l₂ : List α} (h : l₁.Subperm l₂) (hn : l₂.Nodup) : l₁.Nodup := by
  obtain ⟨l, hp, hs⟩ := h
  exact hp.nodup (hs.nodup hn)

theorem subperm_append {a₁ a₂ b₁ b₂ : List α} (h₁ : a₁.Subperm b₁) (h₂ : a₂.Subperm b₂) :
    (a₁ ++ a₂).Subperm (b₁ ++ b₂) := by
  obtain ⟨c₁, hp₁, hs₁⟩ := h₁
  obtain ⟨c₂, hp₂, hs₂⟩ := h₂
  exact ⟨c₁ ++ c₂, hp₁.append hp₂, hs₁.append hs₂⟩

theorem range_filterMap_getElem (l : List α) :
    (List.range l.length).filterMap (fun i => l[i]?) = l := by
  induction l with
  | nil => rfl
  | cons a t ih =>
    rw [List.length_cons, List.range_succ_eq_map, List.filterMap_cons, List.filterMap_map]
    simp only [Function.comp_def, List.getElem?_cons_succ, List.getElem?_cons_zero, ih]

theorem map_getD_range (l : List α) (d : α) :
    (List.range l.length).map (fun i => l.getD i d) = l := by
  induction l with
  | nil => rfl
  | cons a t ih =>
    rw [List.length_cons, List.range_succ_eq_map, List.map_cons, List.map_map]
    simp only [Function.comp_def, List.getD_cons_succ, List.getD_cons_zero, ih]

theorem not_pair_sublist_swap {a b : α} {l : List α} (hnd : l.Nodup) (hne : a ≠ b)
    (h1 : [a, b].Sublist l) (h2 : [b, a].Sublist l) : False := by
  induction l with
  | nil => simp at h1
  | cons c t ih =>
    rcases List.nodup_cons.mp hnd with ⟨hc, hnt⟩
    cases h1 with
    | cons _ h1t =>
      cases h2 with
      | cons _ h2t => exact ih hnt h1t h2t
      | cons₂ _ h2t =>
        exact hc (h1t.subset (by simp))
    | cons₂ _ h1t =>
      cases h2 with
      | cons _ h2t =>
        exact hc (h2t.subset (by simp))
      | cons₂ _ h2t => exact hne rfl

namespace Torch

theorem chunkListAux_nil (bs : Nat) : ∀ fuel, chunkListAux bs fuel ([] : List α) = [] := by
  intro fuel
  cases fuel <;> rfl

theorem drop_length_lemma (bs : Nat) (hbs : bs ≠ 0) (a : α) (t : List α) {fuel : Nat}
    (hl : (a :: t).length ≤ fuel + 1) : ((a :: t).drop bs).length ≤ fuel := by
  simp only [List.length_drop, List.length_cons] at *
  omega

theorem chunkList_of_length_le {bs : Nat} (hbs : bs ≠ 0) {l : List α} (hne : l ≠ [])
    (hl : l.length ≤ bs) : chunkList bs l = [l] := by
  match l with
  | a :: t =>
    show chunkListAux bs (a :: t).length (a :: t) = [a :: t]
    rw [List.length_cons, chunkListAux, List.take_of_length_le hl,
      List.drop_eq_nil_of_le hl, chunkListAux_nil]

theorem flatten_chunkList {bs : Nat} (hbs : bs ≠ 0) (l : List α) :
    (chunkList bs l).flatten = l := by
  suffices h : ∀ fuel (l : List α), l.length ≤ fuel → (chunkListAux bs fuel l).flatten = l from
    h _ l le_rfl
  intro fuel
  induction fuel with
  | zero =>
    intro l hl
    obtain rfl := List.eq_nil_of_length_eq_zero (Nat.le_zero.mp hl)
    rfl
  | succ fuel ih =>
    intro l hl
    cases l with
    | nil => rfl
    | cons a t =>
      rw [chunkListAux, List.flatten_cons, ih _ (drop_length_lemma bs hbs a t hl)]
      exact List.take_append_drop _ _

theorem mem_chunkList {bs : Nat} (hbs : bs ≠ 0) {l : List α} {c : List α}
    (hc : c ∈ chunkList bs l) : c ≠ [] ∧ c.length ≤ bs := by
  suffices h : ∀ fuel (l : List α), l.length ≤ fuel → ∀ c ∈ chunkListAux bs fuel l,
      c ≠ [] ∧ c.length ≤ bs from h _ l le_rfl c hc
  intro fuel
  induction fuel with
  | zero =>
    intro l hl c hc
    obtain rfl := List.eq_nil_of_length_eq_zero (Nat.le_zero.mp hl)
    simp [chunkListAux] at hc
  | succ fuel ih =>
    intro l hl c hc
    cases l with
    | nil => simp [chunkListAux_nil] at hc
    | cons a t =>
      rw [chunkListAux, List.mem_cons] at hc
      rcases hc with rfl | hc
      · refine ⟨?_, by simp [List.length_take]⟩
        rw [List.take_cons (Nat.pos_of_ne_zero hbs)]
        simp
      · exact ih _ (drop_length_lemma bs hbs a t hl) c hc

theorem length_chunkList {bs : Nat} (hbs : bs ≠ 0) (l : List α) :
    (chunkList bs l).length = (l.length + bs - 1) / bs := by
  suffices h : ∀ fuel (l : List α), l.length ≤ fuel →
      (chunkListAux bs fuel l).length = (l.length + bs - 1) / bs from h _ l le_rfl
  intro fuel
  induction fuel with
  | zero =>
    intro l hl
    obtain rfl := List.eq_nil_of_length_eq_zero (Nat.le_zero.mp hl)
    simp [chunkListAux, Nat.div_eq_of_lt (show bs - 1 < bs by omega)]
  | succ fuel ih =>
    intro l hl
    cases l with
    | nil => simp [chunkListAux_nil, Nat.div_eq_of_lt (show bs - 1 < bs by omega)]
    | cons a t =>
      have hbs' : 0 < bs := Nat.pos_of_ne_zero hbs
      have hstep : bs ≤ (a :: t).length + bs - 1 := by
        simp only [List.length_cons]; omega
      rw [chunkListAux, List.length_cons, ih _ (drop_length_lemma bs hbs a t hl),
        Nat.div_eq_sub_div hbs' hstep]
      have harith : (a :: t).length + bs - 1 - bs = (a :: t).length - 1 := by
        simp only [List.length_cons]; omega
      have harith2 : ((a :: t).drop bs).length + bs - 1 = (a :: t).length - 1
          ∨ ((a :: t).drop bs).length + bs - 1 = bs - 1 ∧ (a :: t).length - 1 < bs := by
        simp only [List.length_drop, List.length_cons]
        omega
      rw [harith]
      rcases harith2 with h | ⟨h, hlt⟩
      · rw [h]
      · rw [h, Nat.div_eq_of_lt (by omega), Nat.div_eq_of_lt hlt]

theorem length_filter_chunkList {bs : Nat} (hbs : bs ≠ 0) (l : List α) :
    ((chunkList bs l).filter (fun c => c.length == bs)).length = l.length / bs := by
  suffices h : ∀ fuel (l : List α), l.length ≤ fuel →
      ((chunkListAux bs fuel l).filter (fun c => c.length == bs)).length = l.length / bs from
    h _ l le_rfl
  intro fuel
  induction fuel with
  | zero =>
    intro l hl
    obtain rfl := List.eq_nil_of_length_eq_zero (Nat.le_zero.mp hl)
    simp [chunkListAux]
  | succ fuel ih =>
    intro l hl
    cases l with
    | nil => simp [chunkListAux_nil]
    | cons a t =>
      have hbs' : 0 < bs := Nat.pos_of_ne_zero hbs
      have hrec := ih _ (drop_length_lemma bs hbs a t hl)
      rw [chunkListAux, List.filter_cons]
      by_cases hle : (a :: t).length ≤ bs
      · rw [List.take_of_length_le hle, List.drop_eq_nil_of_le hle, chunkListAux_nil]
        by_cases heq : (a :: t).length = bs
        · rw [if_pos (by simpa using heq)]
          rw [heq, Nat.div_self hbs']
          rfl
        · rw [if_neg (by simpa using heq)]
          rw [Nat.div_eq_of_lt (by omega)]
          rfl
      · push_neg at hle
        have htake : ((a :: t).take bs).length = bs := by
          rw [List.length_take]
          exact Nat.min_eq_left (le_of_lt hle)
        rw [if_pos (by simpa using htake), List.length_cons, hrec,
          Nat.div_eq_sub_div hbs' (le_of_lt hle)]
        simp only [List.length_drop, List.length_cons]

theorem length_flatten_filter_chunkList {bs : Nat} (hbs : bs ≠ 0) (l : List α) :
    ((chunkList bs l).filter (fun c => c.length == bs)).flatten.length
      = l.length - l.length % bs := by
  suffices h : ∀ fuel (l : List α), l.length ≤ fuel →
      ((chunkListAux bs fuel l).filter (fun c => c.length == bs)).flatten.length
        = l.length - l.length % bs from h _ l le_rfl
  intro fuel
  induction fuel with
  | zero =>
    intro l hl
    obtain rfl := List.eq_nil_of_length_eq_zero (Nat.le_zero.mp hl)
    simp [chunkListAux]
  | succ fuel ih =>
    intro l hl
    cases l with
    | nil => simp [chunkListAux_nil]
    | cons a t =>
      have hbs' : 0 < bs := Nat.pos_of_ne_zero hbs
      have hrec := ih _ (drop_length_lemma bs hbs a t hl)
      rw [chunkListAux, List.filter_cons]
      by_cases hle : (a :: t).length ≤ bs
      · rw [List.take_of_length_le hle, List.drop_eq_nil_of_le hle, chunkListAux_nil]
        by_cases heq : (a :: t).length = bs
        · rw [if_pos (by simpa using heq)]
          simp only [List.filter_nil, List.flatten_cons, List.flatten_nil, List.append_nil]
          rw [heq, Nat.mod_self]
          omega
        · rw [if_neg (by simpa using heq)]
          simp only [List.filter_nil, List.flatten_nil, List.length_nil]
          rw [Nat.mod_eq_of_lt (by omega)]
          omega
      · push_neg at hle
        have htake : ((a :: t).take bs).length = bs := by
          rw [List.length_take]
          exact Nat.min_eq_left (le_of_lt hle)
        rw [if_pos (by simpa using htake), List.flatten_cons, List.length_append, htake, hrec]
        simp only [List.length_drop]
        have hmod : ((a :: t).length - bs) % bs = (a :: t).length % bs :=
          (Nat.mod_eq_sub_mod (le_of_lt hle)).symm
        have h1 : (a :: t).length % bs ≤ (a :: t).length - bs := by
          rw [← hmod]; exact Nat.mod_le _ _
        have h2 : (a :: t).length % bs < bs := Nat.mod_lt _ hbs'
        omega

theorem countP_undersized_chunkList {bs : Nat} (hbs : bs ≠ 0) (l : List α) :
    (chunkList bs l).countP (fun c => c.length < bs)
      = if bs ∣ l.length then 0 else 1 := by
  suffices h : ∀ fuel (l : List α), l.length ≤ fuel →
      (chunkListAux bs fuel l).countP (fun c => c.length < bs)
        = if bs ∣ l.length then 0 else 1 from h _ l le_rfl
  intro fuel
  induction fuel with
  | zero =>
    intro l hl
    obtain rfl := List.eq_nil_of_length_eq_zero (Nat.le_zero.mp hl)
    simp [chunkListAux]
  | succ fuel ih =>
    intro l hl
    cases l with
    | nil => simp [chunkListAux_nil]
    | cons a t =>
      have hbs' : 0 < bs := Nat.pos_of_ne_zero hbs
      have hrec := ih _ (drop_length_lemma bs hbs a t hl)
      rw [chunkListAux, List.countP_cons, hrec]
      by_cases hle : (a :: t).length ≤ bs
      · have hd0 : ((a :: t).drop bs).length = 0 := by
          simp only [List.length_drop]; omega
        rw [hd0, if_pos (dvd_zero bs), List.take_of_length_le hle]
        by_cases heq : (a :: t).length = bs
        · rw [if_neg (by simp [heq]), if_pos (by rw [heq])]
        · have hlt : (a :: t).length < bs := by omega
          have hnd : ¬ bs ∣ (a :: t).length := by
            intro hd
            have := Nat.eq_zero_of_dvd_of_lt hd hlt
            simp at this
          rw [if_pos (by simpa using hlt), if_neg hnd]
      · push_neg at hle
        have htake : ((a :: t).take bs).length = bs := by
          rw [List.length_take]
          exact Nat.min_eq_left (le_of_lt hle)
        have hiff : (bs ∣ ((a :: t).drop bs).length) ↔ (bs ∣ (a :: t).length) := by
          simp only [List.length_drop]
          constructor
          · intro h
            have h2 : bs ∣ ((a :: t).length - bs) + bs := Nat.dvd_add_self_right.mpr h
            rwa [Nat.sub_add_cancel (le_of_lt hle)] at h2
          · intro h
            exact Nat.dvd_sub' h dvd_rfl
        have h2 : (decide (((a :: t).take bs).length < bs)) = false := by
          simp [htake]
        rw [h2]
        simp only [Bool.false_eq_true, if_false, add_zero, hiff]

theorem sum_g_chunkList {K : Nat} (hK : K ≠ 0) (g : Nat → Nat) (hg0 : g 0 = 0)
    (hadd : ∀ m, g (K + m) = g K + g m) (l : List α) :
    ((chunkList K l).map (fun B => g B.length)).sum = g l.length := by
  suffices h : ∀ fuel (l : List α), l.length ≤ fuel →
      ((chunkListAux K fuel l).map (fun B => g B.length)).sum = g l.length from h _ l le_rfl
  intro fuel
  induction fuel with
  | zero =>
    intro l hl
    obtain rfl := List.eq_nil_of_length_eq_zero (Nat.le_zero.mp hl)
    simpa [chunkListAux] using hg0.symm
  | succ fuel ih =>
    intro l hl
    cases l with
    | nil => simpa [chunkListAux_nil] using hg0.symm
    | cons a t =>
      have hrec := ih _ (drop_length_lemma K hK a t hl)
      rw [chunkListAux, List.map_cons, List.sum_cons, hrec]
      by_cases hle : (a :: t).length ≤ K
      · have hd0 : ((a :: t).drop K).length = 0 := by
          simp only [List.length_drop]; omega
        rw [hd0, hg0, List.take_of_length_le hle]
        omega
      · push_neg at hle
        have htake : ((a :: t).take K).length = K := by
          rw [List.length_take]
          exact Nat.min_eq_left (le_of_lt hle)
        rw [htake]
        simp only [List.length_drop]
        have := hadd ((a :: t).length - K)
        rw [Nat.add_sub_cancel' (le_of_lt hle)] at this
        omega

theorem subsetRandomSampler_perm {σ : List Nat} {l : List α}
    (h : σ.Perm (List.range l.length)) : (subsetRandomSampler σ l).Perm l := by
  unfold subsetRandomSampler
  exact (h.filterMap (fun i => l[i]?)).trans (by rw [range_filterMap_getElem])

end Torch

theorem pair_get_sublist : ∀ (l : List α) (i j : Fin l.length), (i : Nat) < (j : Nat) →
    [l.get i, l.get j].Sublist l := by
  intro l
  induction l with
  | nil =>
    intro i j hij
    exact absurd i.isLt (by simp)
  | cons a t ih =>
    intro i j hij
    match i, j with
    | ⟨0, _⟩, ⟨0, _⟩ => exact absurd hij (lt_irrefl 0)
    | ⟨0, h0⟩, ⟨j + 1, hj⟩ =>
      show [a, t.get ⟨j, Nat.lt_of_succ_lt_succ hj⟩].Sublist (a :: t)
      exact List.Sublist.cons₂ a (List.singleton_sublist.mpr (t.get_mem _ _))
    | ⟨i + 1, hi⟩, ⟨j + 1, hj⟩ =>
      show [t.get ⟨i, Nat.lt_of_succ_lt_succ hi⟩, t.get ⟨j, Nat.lt_of_succ_lt_succ hj⟩].Sublist
        (a :: t)
      have hij2 : i + 1 < j + 1 := hij
      exact List.Sublist.cons a
        (ih ⟨i, Nat.lt_of_succ_lt_succ hi⟩ ⟨j, Nat.lt_of_succ_lt_succ hj⟩ (by
          show i < j
          omega))

namespace SortedSampler

theorem sortedIndexes_eq [LinearOrder β] (key : α → β) (data : List α) :
    sortedIndexes key data
      = (((data.map key).enum).insertionSort (fun a b => a.2 ≤ b.2)).map (fun p => p.1) := by
  unfold sortedIndexes
  rw [show data.enum.map (fun p => (p.1, key p.2)) = (data.map key).enum by
    rw [List.enum_map]
    exact List.map_congr_left (fun p _ => rfl)]

theorem sortedIndexes_perm [LinearOrder β] (key : α → β) (data : List α) :
    (sortedIndexes key data).Perm (List.range data.length) := by
  rw [sortedIndexes_eq]
  have h2 := (List.perm_insertionSort
    (fun a b : Nat × β => a.2 ≤ b.2) ((data.map key).enum)).map (fun p : Nat × β => p.1)
  have h3 : ((data.map key).enum).map (fun p : Nat × β => p.1) = List.range data.length := by
    simpa using List.enum_map_fst (data.map key)
  exact h2.trans (by rw [h3])

theorem length_sortedIndexes [LinearOrder β] (key : α → β) (data : List α) :
    (sortedIndexes key data).length = data.length := by
  simpa using (sortedIndexes_perm key data).length_eq

theorem sortedIndexes_eq_range_of_sorted [LinearOrder β] (key : α → β) {data : List α}
    (hs : (data.map key).Pairwise (· ≤ ·)) :
    sortedIndexes key data = List.range data.length := by
  rw [sortedIndexes_eq]
  have hsorted : ((data.map key).enum).Pairwise (fun a b : Nat × β => a.2 ≤ b.2) := by
    rw [List.pairwise_iff_getElem] at hs ⊢
    intro i j hi hj hij
    have hi2 : i < (data.map key).length := by simpa using hi
    have hj2 : j < (data.map key).length := by simpa using hj
    rw [List.getElem_enum, List.getElem_enum]
    exact hs i j hi2 hj2 hij
  rw [List.Sorted.insertionSort_eq hsorted]
  simpa using List.enum_map_fst (data.map key)

theorem insertionSort_enum_pairwise [LinearOrder β] (ks : List β) :
    ((ks.enum).insertionSort (fun a b => a.2 ≤ b.2)).Pairwise
      (fun p q : Nat × β => p.2 < q.2 ∨ (p.2 = q.2 ∧ p.1 < q.1)) := by
  have instTot : IsTotal (Nat × β) (fun a b => a.2 ≤ b.2) := ⟨fun a b => le_total a.2 b.2⟩
  have instTrans : IsTrans (Nat × β) (fun a b => a.2 ≤ b.2) :=
    ⟨fun a b c hab hbc => le_trans hab hbc⟩
  have hperm : ((ks.enum).insertionSort (fun a b => a.2 ≤ b.2)).Perm ks.enum :=
    List.perm_insertionSort _ ks.enum
  have hsorted : ((ks.enum).insertionSort (fun a b => a.2 ≤ b.2)).Pairwise
      (fun a b : Nat × β => a.2 ≤ b.2) :=
    List.sorted_insertionSort _ ks.enum
  have hfst : (((ks.enum).insertionSort (fun a b => a.2 ≤ b.2)).map
      (fun p : Nat × β => p.1)).Perm (List.range ks.length) :=
    (hperm.map (fun p : Nat × β => p.1)).trans (by simpa using List.Perm.refl _)
  have hfstnd : (((ks.enum).insertionSort (fun a b => a.2 ≤ b.2)).map
      (fun p : Nat × β => p.1)).Nodup :=
    hfst.symm.nodup (List.nodup_range _)
  have hpne : ((ks.enum).insertionSort (fun a b => a.2 ≤ b.2)).Pairwise
      (fun p q : Nat × β => p.1 ≠ q.1) := List.pairwise_map.mp hfstnd
  have hnd : ((ks.enum).insertionSort (fun a b => a.2 ≤ b.2)).Nodup :=
    List.Nodup.of_map _ hfstnd
  rw [List.pairwise_iff_forall_sublist]
  intro p q hsub
  have hle : p.2 ≤ q.2 := List.pairwise_iff_forall_sublist.mp hsorted hsub
  have hne1 : p.1 ≠ q.1 := List.pairwise_iff_forall_sublist.mp hpne hsub
  rcases lt_or_eq_of_le hle with hlt | heq
  · exact Or.inl hlt
  · refine Or.inr ⟨heq, ?_⟩
    rcases Nat.lt_or_ge p.1 q.1 with h | h
    · exact h
    · exfalso
      have hqp1 : q.1 < p.1 := lt_of_le_of_ne h (Ne.symm hne1)
      have hpmem : p ∈ ks.enum := hperm.subset (hsub.subset (by simp))
      have hqmem : q ∈ ks.enum := hperm.subset (hsub.subset (by simp))
      have hp1 : ks[p.1]? = some p.2 := List.mem_enum_iff_getElem?.mp hpmem
      have hq1 : ks[q.1]? = some q.2 := List.mem_enum_iff_getElem?.mp hqmem
      have hplt : p.1 < ks.length := by
        by_contra hcon
        push_neg at hcon
        rw [List.getElem?_eq_none hcon] at hp1
        exact absurd hp1 (by simp)
      have hqlt : q.1 < ks.length := by
        by_contra hcon
        push_neg at hcon
        rw [List.getElem?_eq_none hcon] at hq1
        exact absurd hq1 (by simp)
      have hpv : ks[p.1] = p.2 := by
        rw [List.getElem?_eq_getElem hplt] at hp1
        exact Option.some.inj hp1
      have hqv : ks[q.1] = q.2 := by
        rw [List.getElem?_eq_getElem hqlt] at hq1
        exact Option.some.inj hq1
      have hp1e : p.1 < ks.enum.length := by simpa using hplt
      have hq1e : q.1 < ks.enum.length := by simpa using hqlt
      have hq2 : (ks.enum).get ⟨q.1, hq1e⟩ = q := by
        rw [List.get_eq_getElem, List.getElem_enum, hqv]
      have hp2 : (ks.enum).get ⟨p.1, hp1e⟩ = p := by
        rw [List.get_eq_getElem, List.getElem_enum, hpv]
      have hsub2 : [q, p].Sublist ks.enum := by
        have h5 := pair_get_sublist ks.enum ⟨q.1, hq1e⟩ ⟨p.1, hp1e⟩ hqp1
        rwa [hq2, hp2] at h5
      have hsub3 : [q, p].Sublist ((ks.enum).insertionSort (fun a b => a.2 ≤ b.2)) :=
        List.pair_sublist_insertionSort (le_of_eq heq.symm) hsub2
      exact not_pair_sublist_swap hnd (fun hpq => hne1 (by rw [hpq])) hsub hsub3

end SortedSampler

theorem zip_flatMap_perm {A : Type u} {B : Type v} {C : Type w} {Bs : List A} {cps : List B}
    {F : A × B → List C} {G : A → List C}
    (h : List.Forall₂ (fun b σ => (F (b, σ)).Perm (G b)) Bs cps) :
    ((Bs.zip cps).flatMap F).Perm (Bs.flatMap G) := by
  induction h with
  | nil => simp
  | cons h1 _ ih =>
    rw [List.zip_cons_cons, List.flatMap_cons, List.flatMap_cons]
    exact h1.append ih

theorem flatten_flatMap {A : Type u} {C : Type w} (Bs : List A) (G : A → List (List C)) :
    (Bs.flatMap G).flatten = Bs.flatMap (fun b => (G b).flatten) := by
  induction Bs with
  | nil => rfl
  | cons b t ih => rw [List.flatMap_cons, List.flatMap_cons, List.flatten_append, ih]

theorem flatMap_perm_of_forall {A : Type u} {C : Type w} {Bs : List A} {G φ : A → List C}
    (h : ∀ b ∈ Bs, (G b).Perm (φ b)) : (Bs.flatMap G).Perm (Bs.flatMap φ) := by
  induction Bs with
  | nil => simp
  | cons b t ih =>
    rw [List.flatMap_cons, List.flatMap_cons]
    exact (h b (by simp)).append (ih (fun c hc => h c (by simp [hc])))

theorem flatMap_subperm_of_forall {A : Type u} {C : Type w} {Bs : List A} {G φ : A → List C}
    (h : ∀ b ∈ Bs, (G b).Subperm (φ b)) : (Bs.flatMap G).Subperm (Bs.flatMap φ) := by
  induction Bs with
  | nil => simp
  | cons b t ih =>
    rw [List.flatMap_cons, List.flatMap_cons]
    exact subperm_append (h b (by simp)) (ih (fun c hc => h c (by simp [hc])))

theorem countP_flatMap {A : Type u} {C : Type w} (p : C → Bool) (Bs : List A) (G : A → List C) :
    (Bs.flatMap G).countP p = (Bs.map (fun b => (G b).countP p)).sum := by
  induction Bs with
  | nil => rfl
  | cons b t ih => rw [List.flatMap_cons, List.countP_append, List.map_cons, List.sum_cons, ih]

namespace Torch

theorem sum_g_buckets {A : Type u} {K bs : Nat} (hK : K ≠ 0) (g : Nat → Nat) (hg0 : g 0 = 0)
    (hadd : bs ∣ K → ∀ m, g (K + m) = g K + g m) (l : List A)
    (hdisj : bs ∣ K ∨ l.length ≤ K) :
    ((chunkList K l).map (fun B => g B.length)).sum = g l.length := by
  rcases hdisj with hdvd | hle
  · exact sum_g_chunkList hK g hg0 (hadd hdvd) l
  · rcases eq_or_ne l [] with rfl | hne
    · simp only [show chunkList K ([] : List A) = [] from rfl, List.map_nil, List.sum_nil,
        List.length_nil, hg0]
    · rw [chunkList_of_length_le hK hne hle]
      simp

end Torch

theorem g_sub_mod_add {bs K : Nat} (hbs : bs ≠ 0) (hdvd : bs ∣ K) :
    ∀ m, (K + m) - (K + m) % bs = (K - K % bs) + (m - m % bs) := by
  obtain ⟨k, rfl⟩ := hdvd
  intro m
  have h1 : (bs * k + m) % bs = m % bs := by
    rw [Nat.mul_add_mod]
  have h2 : (bs * k) % bs = 0 := Nat.mul_mod_right bs k
  have h3 : m % bs ≤ m := Nat.mod_le m bs
  omega

theorem g_div_add {bs K : Nat} (hbs : bs ≠ 0) (hdvd : bs ∣ K) :
    ∀ m, (K + m) / bs = K / bs + m / bs := by
  obtain ⟨k, rfl⟩ := hdvd
  intro m
  have hbs2 : 0 < bs := Nat.pos_of_ne_zero hbs
  rw [Nat.mul_add_div hbs2, Nat.mul_div_cancel_left k hbs2]

theorem g_ceil_add {bs K : Nat} (hbs : bs ≠ 0) (hdvd : bs ∣ K) :
    ∀ m, (K + m + bs - 1) / bs = (K + bs - 1) / bs + (m + bs - 1) / bs := by
  obtain ⟨k, rfl⟩ := hdvd
  intro m
  have hbs2 : 0 < bs := Nat.pos_of_ne_zero hbs
  have e1 : bs * k + m + bs - 1 = bs * k + (m + bs - 1) := by omega
  have e2 : bs * k + bs - 1 = bs * k + (bs - 1) := by omega
  rw [e1, e2, Nat.mul_add_div hbs2, Nat.mul_add_div hbs2,
    Nat.div_eq_of_lt (show bs - 1 < bs by omega)]
  simp

theorem g_dvd_add {bs K : Nat} (hbs : bs ≠ 0) (hdvd : bs ∣ K) :
    ∀ m, (if bs ∣ K + m then (0 : Nat) else 1)
      = (if bs ∣ K then (0 : Nat) else 1) + (if bs ∣ m then (0 : Nat) else 1) := by
  intro m
  rw [if_pos hdvd, if_congr (Nat.dvd_add_right hdvd) rfl rfl, Nat.zero_add]

namespace BucketBatchSampler

theorem init_ok_struct {dataset : List α} {bs mult : Int} {key : α → β} {dl sh : Bool}
    {s : BucketBatchSampler α β} (h : init dataset bs key dl sh mult = Except.ok s) :
    0 < bs ∧ 0 < min (bs * mult) (dataset.length : Int) ∧
      s = ⟨dataset, key, bs.toNat, dl, sh, (min (bs * mult) (dataset.length : Int)).toNat⟩ := by
  unfold init at h
  by_cases h1 : bs ≤ 0
  · rw [if_pos h1] at h
    simp at h
  · rw [if_neg h1] at h
    by_cases h2 : min (bs * mult) (dataset.length : Int) ≤ 0
    · rw [if_pos h2] at h
      simp at h
    · rw [if_neg h2] at h
      exact ⟨by omega, by omega, (Except.ok.inj h).symm⟩

theorem init_ok_facts {dataset : List α} {bs mult : Int} {key : α → β} {dl sh : Bool}
    {s : BucketBatchSampler α β} (h : init dataset bs key dl sh mult = Except.ok s) :
    s.dataset = dataset ∧ s.sort_key = key ∧ s.drop_last = dl ∧ s.shuffle = sh ∧
      0 < s.batch_size ∧ 0 < s.bucket_size ∧ s.bucket_size ≤ s.dataset.length ∧
      (s.batch_size ∣ s.bucket_size ∨ s.dataset.length ≤ s.bucket_size) ∧
      0 < s.dataset.length ∧ s.batch_size = bs.toNat := by
  obtain ⟨hbs, hmin, rfl⟩ := init_ok_struct h
  obtain ⟨hbm, hN⟩ := lt_min_iff.mp hmin
  have hm : 0 < mult := by
    by_contra hcon
    push_neg at hcon
    have h5 : bs * mult ≤ bs * 0 := mul_le_mul_of_nonneg_left hcon (le_of_lt hbs)
    simp only [Int.mul_zero] at h5
    omega
  refine ⟨rfl, rfl, rfl, rfl, by show 0 < bs.toNat; omega, ?_, ?_, ?_,
    by show 0 < dataset.length; omega, rfl⟩
  · show 0 < (min (bs * mult) (dataset.length : Int)).toNat
    omega
  · show (min (bs * mult) (dataset.length : Int)).toNat ≤ dataset.length
    omega
  · rcases le_total (bs * mult) ((dataset.length : Nat) : Int) with hc | hc
    · left
      show bs.toNat ∣ (min (bs * mult) (dataset.length : Int)).toNat
      rw [min_eq_left hc]
      have e : (bs * mult).toNat = bs.toNat * mult.toNat := by
        have e1 : ((bs.toNat : Int)) = bs := Int.toNat_of_nonneg (le_of_lt hbs)
        have e2 : ((mult.toNat : Int)) = mult := Int.toNat_of_nonneg (le_of_lt hm)
        have e3 : bs * mult = ((bs.toNat * mult.toNat : Nat) : Int) := by
          rw [Nat.cast_mul, e1, e2]
        rw [e3, Int.toNat_natCast]
      rw [e]
      exact dvd_mul_right _ _
    · right
      show dataset.length ≤ (min (bs * mult) (dataset.length : Int)).toNat
      rw [min_eq_right hc, Int.toNat_natCast]

theorem sortedLocal_perm [LinearOrder β] [Inhabited α] (s : BucketBatchSampler α β)
    (b : List Nat) :
    (SortedSampler.sortedIndexes s.sort_key (b.map (fun i => s.dataset.getD i default))).Perm
      (List.range b.length) := by
  have h := SortedSampler.sortedIndexes_perm s.sort_key
    (b.map (fun i => s.dataset.getD i default))
  simpa using h

theorem sortedLocal_length [LinearOrder β] [Inhabited α] (s : BucketBatchSampler α β)
    (b : List Nat) :
    (SortedSampler.sortedIndexes s.sort_key
      (b.map (fun i => s.dataset.getD i default))).length = b.length := by
  simpa using (sortedLocal_perm s b).length_eq

theorem bucket_out_perm [LinearOrder β] [Inhabited α] {s : BucketBatchSampler α β}
    {bucket σ : List Nat} (hσ : σ.Perm (List.range (s.bucketChunks bucket).length)) :
    ((Torch.subsetRandomSampler σ (s.bucketChunks bucket)).map
        (fun batch => batch.map (fun i => bucket.getD i 0))).Perm
      ((s.bucketChunks bucket).map (fun batch => batch.map (fun i => bucket.getD i 0))) :=
  (Torch.subsetRandomSampler_perm hσ).map _

theorem indexBatches_perm_canon [LinearOrder β] [Inhabited α] {s : BucketBatchSampler α β}
    {op : List Nat} {cps : List (List Nat)} (hc : s.ChunkDraw op cps) :
    (s.indexBatches op cps).Perm (s.canonBatches op) := by
  unfold indexBatches canonBatches
  exact zip_flatMap_perm (hc.imp (fun b σ hσ => bucket_out_perm hσ))

theorem bucket_flatten_perm [LinearOrder β] [Inhabited α] {s : BucketBatchSampler α β}
    (hbs : s.batch_size ≠ 0) (hdl : s.drop_last = false) (b : List Nat) :
    (((s.bucketChunks b).map (fun batch => batch.map (fun i => b.getD i 0))).flatten).Perm b := by
  rw [← List.map_flatten]
  unfold bucketChunks Torch.batchSampler
  rw [hdl]
  simp only [Bool.false_eq_true, if_false]
  rw [Torch.flatten_chunkList hbs]
  exact ((sortedLocal_perm s b).map _).trans (by rw [map_getD_range])

theorem bucket_flatten_subperm [LinearOrder β] [Inhabited α] {s : BucketBatchSampler α β}
    (hbs : s.batch_size ≠ 0) (hdl : s.drop_last = true) (b : List Nat) :
    (((s.bucketChunks b).map
      (fun batch => batch.map (fun i => b.getD i 0))).flatten).Subperm b := by
  rw [← List.map_flatten]
  unfold bucketChunks Torch.batchSampler
  rw [hdl, if_pos rfl]
  have hsl : ((Torch.chunkList s.batch_size (SortedSampler.sortedIndexes s.sort_key
      (b.map (fun i => s.dataset.getD i default)))).filter
        (fun c => c.length == s.batch_size)).flatten.Sublist
      (SortedSampler.sortedIndexes s.sort_key (b.map (fun i => s.dataset.getD i default))) := by
    have h5 := sublist_flatten (List.filter_sublist (p := fun c => c.length == s.batch_size)
      (Torch.chunkList s.batch_size (SortedSampler.sortedIndexes s.sort_key
        (b.map (fun i => s.dataset.getD i default)))))
    rwa [Torch.flatten_chunkList hbs] at h5
  exact ((hsl.map _).subperm).trans
    (((sortedLocal_perm s b).map _).trans (by rw [map_getD_range])).subperm

theorem bucket_flatten_len_drop [LinearOrder β] [Inhabited α] {s : BucketBatchSampler α β}
    (hbs : s.batch_size ≠ 0) (hdl : s.drop_last = true) (b : List Nat) :
    (((s.bucketChunks b).map
      (fun batch => batch.map (fun i => b.getD i 0))).flatten).length
      = b.length - b.length % s.batch_size := by
  rw [← List.map_flatten, List.length_map]
  unfold bucketChunks Torch.batchSampler
  rw [hdl, if_pos rfl, Torch.length_flatten_filter_chunkList hbs, sortedLocal_length]

theorem bucket_numChunks [LinearOrder β] [Inhabited α] {s : BucketBatchSampler α β}
    (hbs : s.batch_size ≠ 0) (b : List Nat) :
    (s.bucketChunks b).length
      = if s.drop_last then b.length / s.batch_size
        else (b.length + s.batch_size - 1) / s.batch_size := by
  unfold bucketChunks Torch.batchSampler
  cases hdl : s.drop_last with
  | false =>
    simp only [Bool.false_eq_true, if_false]
    rw [Torch.length_chunkList hbs, sortedLocal_length]
  | true =>
    simp only [if_pos]
    rw [Torch.length_filter_chunkList hbs, sortedLocal_length]

theorem bucket_batch_sizes [LinearOrder β] [Inhabited α] {s : BucketBatchSampler α β}
    (hbs : s.batch_size ≠ 0) {b c : List Nat} (hc : c ∈ s.bucketChunks b) :
    c ≠ [] ∧ c.length ≤ s.batch_size ∧ (s.drop_last = true → c.length = s.batch_size) := by
  unfold bucketChunks Torch.batchSampler at hc
  cases hdl : s.drop_last with
  | false =>
    rw [hdl] at hc
    simp only [Bool.false_eq_true, if_false] at hc
    obtain ⟨h1, h2⟩ := Torch.mem_chunkList hbs hc
    exact ⟨h1, h2, fun h => absurd h (by simp)⟩
  | true =>
    rw [hdl, if_pos rfl] at hc
    obtain ⟨hc2, hfull⟩ := List.mem_filter.mp hc
    have heq : c.length = s.batch_size := by simpa using hfull
    refine ⟨?_, le_of_eq heq, fun _ => heq⟩
    intro hnil
    rw [hnil] at heq
    simp at heq
    omega

theorem bucket_countP_undersized [LinearOrder β] [Inhabited α] {s : BucketBatchSampler α β}
    (hbs : s.batch_size ≠ 0) (b : List Nat) :
    ((s.bucketChunks b).map (fun batch => batch.map (fun i => b.getD i 0))).countP
        (fun c => c.length < s.batch_size)
      ≤ if s.batch_size ∣ b.length then 0 else 1 := by
  rw [List.countP_map]
  have hcong : ((s.bucketChunks b).countP
      ((fun c : List Nat => decide (c.length < s.batch_size)) ∘
        (fun batch => batch.map (fun i => b.getD i 0))))
      = (s.bucketChunks b).countP (fun c => c.length < s.batch_size) := by
    refine List.countP_congr (fun c _ => ?_)
    simp [Function.comp]
  rw [hcong]
  unfold bucketChunks Torch.batchSampler
  cases hdl : s.drop_last with
  | false =>
    simp only [Bool.false_eq_true, if_false]
    rw [Torch.countP_undersized_chunkList hbs, sortedLocal_length]
  | true =>
    simp only [if_pos]
    have hz : ((Torch.chunkList s.batch_size (SortedSampler.sortedIndexes s.sort_key
        (b.map (fun i => s.dataset.getD i default)))).filter
          (fun c => c.length == s.batch_size)).countP
        (fun c => c.length < s.batch_size) = 0 := by
      rw [List.countP_eq_zero]
      intro c hc
      obtain ⟨_, hfull⟩ := List.mem_filter.mp hc
      have heq : c.length = s.batch_size := by simpa using hfull
      simp [heq]
    rw [hz]
    exact Nat.zero_le _

theorem canon_flatten_perm [LinearOrder β] [Inhabited α] {s : BucketBatchSampler α β}
    (hK : s.bucket_size ≠ 0) (hbs : s.batch_size ≠ 0) (hdl : s.drop_last = false)
    (op : List Nat) : ((s.canonBatches op).flatten).Perm op := by
  unfold canonBatches buckets
  rw [flatten_flatMap]
  refine (flatMap_perm_of_forall (fun b _ => bucket_flatten_perm hbs hdl b)).trans ?_
  rw [show ((Torch.chunkList s.bucket_size op).flatMap (fun b => b))
      = (Torch.chunkList s.bucket_size op).flatten from List.flatMap_id _,
    Torch.flatten_chunkList hK]

theorem canon_flatten_subperm [LinearOrder β] [Inhabited α] {s : BucketBatchSampler α β}
    (hK : s.bucket_size ≠ 0) (hbs : s.batch_size ≠ 0) (hdl : s.drop_last = true)
    (op : List Nat) : ((s.canonBatches op).flatten).Subperm op := by
  unfold canonBatches buckets
  rw [flatten_flatMap]
  refine (flatMap_subperm_of_forall (fun b _ => bucket_flatten_subperm hbs hdl b)).trans ?_
  rw [show ((Torch.chunkList s.bucket_size op).flatMap (fun b => b))
      = (Torch.chunkList s.bucket_size op).flatten from List.flatMap_id _,
    Torch.flatten_chunkList hK]

theorem canon_flatten_len_drop [LinearOrder β] [Inhabited α] {s : BucketBatchSampler α β}
    (hK : s.bucket_size ≠ 0) (hbs : s.batch_size ≠ 0) (hdl : s.drop_last = true)
    (op : List Nat)
    (hdisj : s.batch_size ∣ s.bucket_size ∨ op.length ≤ s.bucket_size) :
    ((s.canonBatches op).flatten).length = op.length - op.length % s.batch_size := by
  unfold canonBatches buckets
  rw [flatten_flatMap, List.length_flatMap]
  have e1 : (Torch.chunkList s.bucket_size op).map
      (List.length ∘ fun b => (((s.bucketChunks b).map
        (fun batch => batch.map (fun i => b.getD i 0))).flatten))
      = (Torch.chunkList s.bucket_size op).map
        (fun B => B.length - B.length % s.batch_size) :=
    List.map_congr_left (fun b _ => bucket_flatten_len_drop hbs hdl b)
  rw [e1]
  exact Torch.sum_g_buckets hK (fun m => m - m % s.batch_size) (by simp)
    (fun hdvd => g_sub_mod_add hbs hdvd) op hdisj

theorem canon_length [LinearOrder β] [Inhabited α] {s : BucketBatchSampler α β}
    (hK : s.bucket_size ≠ 0) (hbs : s.batch_size ≠ 0) (op : List Nat)
    (hdisj : s.batch_size ∣ s.bucket_size ∨ op.length ≤ s.bucket_size) :
    (s.canonBatches op).length
      = if s.drop_last then op.length / s.batch_size
        else (op.length + s.batch_size - 1) / s.batch_size := by
  unfold canonBatches buckets
  rw [List.length_flatMap]
  cases hdl : s.drop_last with
  | true =>
    have e1 : (Torch.chunkList s.bucket_size op).map
        (List.length ∘ fun b => ((s.bucketChunks b).map
          (fun batch => batch.map (fun i => b.getD i 0))))
        = (Torch.chunkList s.bucket_size op).map
          (fun B => B.length / s.batch_size) := by
      refine List.map_congr_left (fun b _ => ?_)
      show ((s.bucketChunks b).map (fun batch => batch.map (fun i => b.getD i 0))).length
        = b.length / s.batch_size
      rw [List.length_map, bucket_numChunks hbs b, hdl, if_pos rfl]
    rw [e1, if_pos rfl]
    exact Torch.sum_g_buckets hK (fun m => m / s.batch_size) (by simp)
      (fun hdvd => g_div_add hbs hdvd) op hdisj
  | false =>
    have e1 : (Torch.chunkList s.bucket_size op).map
        (List.length ∘ fun b => ((s.bucketChunks b).map
          (fun batch => batch.map (fun i => b.getD i 0))))
        = (Torch.chunkList s.bucket_size op).map
          (fun B => (B.length + s.batch_size - 1) / s.batch_size) := by
      refine List.map_congr_left (fun b _ => ?_)
      show ((s.bucketChunks b).map (fun batch => batch.map (fun i => b.getD i 0))).length
        = (b.length + s.batch_size - 1) / s.batch_size
      rw [List.length_map, bucket_numChunks hbs b, hdl]
      simp only [Bool.false_eq_true, if_false]
    rw [e1]
    simp only [Bool.false_eq_true, if_false]
    exact Torch.sum_g_buckets hK (fun m => (m + s.batch_size - 1) / s.batch_size)
      (by show (0 + s.batch_size - 1) / s.batch_size = 0
          rw [Nat.zero_add, Nat.div_eq_of_lt (by omega : s.batch_size - 1 < s.batch_size)])
      (fun hdvd => g_ceil_add hbs hdvd) op hdisj

theorem canon_countP_undersized [LinearOrder β] [Inhabited α] {s : BucketBatchSampler α β}
    (hK : s.bucket_size ≠ 0) (hbs : s.batch_size ≠ 0) (op : List Nat)
    (hdisj : s.batch_size ∣ s.bucket_size ∨ op.length ≤ s.bucket_size) :
    (s.canonBatches op).countP (fun c => c.length < s.batch_size) ≤ 1 := by
  unfold canonBatches buckets
  rw [countP_flatMap]
  have h1 := List.sum_le_sum (l := Torch.chunkList s.bucket_size op)
    (fun b _ => bucket_countP_undersized hbs b)
  refine le_trans h1 ?_
  rw [Torch.sum_g_buckets hK (fun m => if s.batch_size ∣ m then 0 else 1) (by simp)
    (fun hdvd => g_dvd_add hbs hdvd) op hdisj]
  by_cases hd : s.batch_size ∣ op.length <;> simp [hd]

theorem canon_mem_sizes [LinearOrder β] [Inhabited α] {s : BucketBatchSampler α β}
    (hbs : s.batch_size ≠ 0) {op : List Nat} {c : List Nat} (hc : c ∈ s.canonBatches op) :
    c ≠ [] ∧ c.length ≤ s.batch_size ∧ (s.drop_last = true → c.length = s.batch_size) := by
  unfold canonBatches at hc
  rw [List.mem_flatMap] at hc
  obtain ⟨b, _, hcb⟩ := hc
  rw [List.mem_map] at hcb
  obtain ⟨batch, hbatch, rfl⟩ := hcb
  obtain ⟨h1, h2, h3⟩ := bucket_batch_sizes hbs hbatch
  refine ⟨fun hnil => h1 (List.map_eq_nil.mp hnil), ?_, ?_⟩
  · rw [List.length_map]
    exact h2
  · intro hdl
    rw [List.length_map]
    exact h3 hdl

theorem outerDraw_length {s : BucketBatchSampler α β} {op : List Nat}
    (h : s.OuterDraw op) : op.length = s.dataset.length := by
  unfold OuterDraw at h
  by_cases hsh : s.shuffle = true
  · rw [if_pos hsh] at h
    simpa using h.length_eq
  · rw [if_neg hsh] at h
    simp [h]

theorem outerDraw_perm {s : BucketBatchSampler α β} {op : List Nat}
    (h : s.OuterDraw op) : op.Perm (List.range s.dataset.length) := by
  unfold OuterDraw at h
  by_cases hsh : s.shuffle = true
  · rwa [if_pos hsh] at h
  · rw [if_neg hsh] at h
    rw [h]

end BucketBatchSampler

theorem keyAt_of_mem_enum [Inhabited α] {key : α → β} {data : List α} {p : Nat × β}
    (hp : p ∈ (data.map key).enum) : keyAt key data p.1 = p.2 ∧ p.1 < data.length := by
  have hv : (data.map key)[p.1]? = some p.2 := List.mem_enum_iff_getElem?.mp hp
  rw [List.getElem?_map] at hv
  cases h9 : data[p.1]? with
  | none =>
    rw [h9] at hv
    exact Option.noConfusion hv
  | some x =>
    rw [h9] at hv
    have hx : key x = p.2 := Option.some.inj hv
    constructor
    · unfold keyAt
      rw [List.getD_eq_getElem?_getD, h9, Option.getD_some, hx]
    · by_contra hcon
      push_neg at hcon
      rw [List.getElem?_eq_none hcon] at h9
      exact absurd h9 (by simp)

/-! ### The claims -/

/-- C5 (amended theorem): constructing `BucketBatchSampler` over an empty dataset
always fails at construction with `ValueError`: either `batch_size <= 0` is
rejected by `BatchSampler.__init__`, or the bucket `BatchSampler` receives size
`min(batch_size * bucket_size_multiplier, 0) <= 0` and rejects it.  No batch is
ever produced. -/
theorem bucketBatchSampler_empty_dataset_init_fails {α : Type u} {β : Type v}
    (key : α → β) (bs mult : Int) (dl sh : Bool) :
    BucketBatchSampler.init ([] : List α) bs key dl sh mult
      = Except.error "batch_size should be a positive integer value" := by
  unfold BucketBatchSampler.init
  by_cases h1 : bs ≤ 0
  · rw [if_pos h1]
  · rw [if_neg h1, if_pos ?_]
    have h2 : ((([] : List α).length : Nat) : Int) = 0 := by simp
    rw [h2]
    exact min_le_right _ _

/-- C5 (counterexample to the claim as stated): over the empty dataset,
construction with `batch_size = 3`, `shuffle = true`, `drop_last = false` and
the default multiplier 100 does not succeed: it raises `ValueError`. -/
theorem bucketBatchSampler_empty_dataset_error_example :
    BucketBatchSampler.init ([] : List Nat) 3 identity false true 100
      = Except.error "batch_size should be a positive integer value" := rfl

/-- C6: a configuration with `batch_size <= 0` or a negative
`bucket_size_multiplier` is rejected eagerly at construction time with a
`ValueError` (never coerced to a valid value): `batch_size <= 0` fails the
`super().__init__` validation, and a negative multiplier makes the bucket
`BatchSampler` size `min(batch_size * bucket_size_multiplier, N)` nonpositive,
failing its validation — in both cases before any batch is produced. -/
theorem bucketBatchSampler_invalid_config_init_fails {α : Type u} {β : Type v}
    (dataset : List α) (key : α → β) {bs mult : Int} (dl sh : Bool)
    (h : bs ≤ 0 ∨ mult < 0) :
    BucketBatchSampler.init dataset bs key dl sh mult
      = Except.error "batch_size should be a positive integer value" := by
  unfold BucketBatchSampler.init
  rcases h with h | h
  · rw [if_pos h]
  · by_cases h1 : bs ≤ 0
    · rw [if_pos h1]
    · rw [if_neg h1, if_pos ?_]
      push_neg at h1
      exact le_trans (min_le_left _ _) (le_of_lt (mul_neg_of_pos_of_neg h1 h))

/-- C6 witness: `batch_size = 3` with multiplier `-5` on a one-item dataset is
rejected at construction. -/
theorem bucketBatchSampler_invalid_config_init_fails_witness :
    ((3 : Int) ≤ 0 ∨ (-5 : Int) < 0) ∧
      BucketBatchSampler.init [(1 : Nat)] 3 identity true true (-5)
        = Except.error "batch_size should be a positive integer value" :=
  ⟨Or.inr (by decide),
    bucketBatchSampler_invalid_config_init_fails [(1 : Nat)] identity true true
      (Or.inr (by decide))⟩

/-- C10: for every collection and sort key, `SortedSampler` yields a
permutation of the positions `[0, n)` (each position exactly once), and its
reported length is the collection's length (hence also the length of the
yielded sequence).  Repeated iteration of one instance is identical by
construction: `__iter__` returns the `sorted_indexes` list computed once in
`__init__`, which the embedding exposes as the pure value `sortedIndexes`. -/
theorem sortedSampler_perm_and_length [LinearOrder β] (key : α → β) (data : List α) :
    (SortedSampler.sortedIndexes key data).Perm (List.range data.length) ∧
      SortedSampler.numSamples data = data.length ∧
      (SortedSampler.sortedIndexes key data).length = data.length :=
  ⟨SortedSampler.sortedIndexes_perm key data, rfl,
    SortedSampler.length_sortedIndexes key data⟩

/-- C7: `SortedSampler` yields positions into the collection ordered by
ascending key, and the sort is stable: among positions with equal keys the
original encounter order (increasing position) is preserved.  Both are
captured by one pairwise condition: along the output, either the key strictly
increases, or the keys are equal and the positions increase.  The result is a
pure function of the collection and the key (the embedding is a function, so
no randomness or side effects exist). -/
theorem sortedSampler_ascending_stable [Inhabited α] [LinearOrder β]
    (key : α → β) (data : List α) :
    (∀ i ∈ SortedSampler.sortedIndexes key data, i < data.length) ∧
      (SortedSampler.sortedIndexes key data).Pairwise (fun i j =>
        keyAt key data i < keyAt key data j ∨
          (keyAt key data i = keyAt key data j ∧ i < j)) := by
  constructor
  · intro i hi
    have h := (SortedSampler.sortedIndexes_perm key data).subset hi
    simpa using h
  · rw [SortedSampler.sortedIndexes_eq]
    rw [List.pairwise_map]
    have hmain := SortedSampler.insertionSort_enum_pairwise (data.map key)
    refine hmain.imp_of_mem ?_
    intro p q hp hq hR
    have hp2 : p ∈ (data.map key).enum := (List.perm_insertionSort _ _).subset hp
    have hq2 : q ∈ (data.map key).enum := (List.perm_insertionSort _ _).subset hq
    obtain ⟨hpk, _⟩ := keyAt_of_mem_enum hp2
    obtain ⟨hqk, _⟩ := keyAt_of_mem_enum hq2
    rw [hpk, hqk]
    exact hR

/-- C8 (counterexample to the claim as stated): the default sort key is the
identity function, which sorts a bucket by the item values themselves, not a
no-op: on the collection `[1, 0]` the sampler yields `[1, 0]`, not the
identity permutation `[0, 1]`. -/
theorem sortedSampler_identity_key_reorders :
    SortedSampler.sortedIndexes identity [(1 : Int), 0] = [1, 0] ∧
      SortedSampler.sortedIndexes identity [(1 : Int), 0] ≠ List.range 2 := by
  constructor
  · decide
  · decide

/-- C8 (amended theorem): with the default `sort_key = identity` the sampler
sorts by the item values, so it performs no reordering precisely on inputs
that are already sorted: for every non-decreasing collection the yielded
sequence is the identity permutation `0, 1, ..., n-1`. -/
theorem sortedSampler_identity_key_on_sorted [LinearOrder α] {data : List α}
    (hs : data.Pairwise (· ≤ ·)) :
    SortedSampler.sortedIndexes identity data = List.range data.length := by
  refine SortedSampler.sortedIndexes_eq_range_of_sorted identity ?_
  have hmapid : ∀ l : List α, l.map identity = l := by
    intro l
    induction l with
    | nil => rfl
    | cons a t ih => rw [List.map_cons, ih]; rfl
  rw [hmapid]
  exact hs

/-- C8 witness: on the already-sorted collection `[1, 2, 2, 5]` the default
key yields the identity permutation. -/
theorem sortedSampler_identity_key_on_sorted_witness :
    ([(1 : Int), 2, 2, 5].Pairwise (· ≤ ·)) ∧
      SortedSampler.sortedIndexes identity [(1 : Int), 2, 2, 5] = List.range 4 :=
  ⟨by decide, sortedSampler_identity_key_on_sorted (by decide)⟩

/-- C1: for every dataset, `batch_size > 0` and `bucket_size_multiplier > 0`,
one full pass of a successfully constructed `BucketBatchSampler` (over any
valid random draws) emits, with `drop_last = false`, every index of
`[0, N)` exactly once (the concatenation of the emitted index batches is a
permutation of `range N`); with `drop_last = true` each index appears at most
once (no duplicates, all in range) and the number of unreferenced indices is
strictly below `batch_size`. -/
theorem bucketBatchSampler_full_pass_cover [LinearOrder β] [Inhabited α]
    {dataset : List α} {bs mult : Int} {key : α → β} {dl sh : Bool}
    {s : BucketBatchSampler α β} {op : List Nat} {cps : List (List Nat)}
    (hbs : 0 < bs) (hmult : 0 < mult)
    (hinit : BucketBatchSampler.init dataset bs key dl sh mult = Except.ok s)
    (hop : s.OuterDraw op) (hcps : s.ChunkDraw op cps) :
    (dl = false → ((s.indexBatches op cps).flatten).Perm (List.range dataset.length)) ∧
      (dl = true → ((s.indexBatches op cps).flatten).Nodup ∧
        (∀ i ∈ (s.indexBatches op cps).flatten, i < dataset.length) ∧
        dataset.length - ((s.indexBatches op cps).flatten).length < bs.toNat) := by
  obtain ⟨hds, hkey, hdl2, hsh2, hbspos, hKpos, hKle, hdisj0, hNpos, hbseq⟩ :=
    BucketBatchSampler.init_ok_facts hinit
  have hbs0 : s.batch_size ≠ 0 := by omega
  have hK0 : s.bucket_size ≠ 0 := by omega
  have hflat := (BucketBatchSampler.indexBatches_perm_canon hcps).flatten
  have hoplen : op.length = dataset.length := by
    rw [BucketBatchSampler.outerDraw_length hop, hds]
  have hopperm : op.Perm (List.range dataset.length) := by
    have h := BucketBatchSampler.outerDraw_perm hop
    rwa [hds] at h
  have hdisj : s.batch_size ∣ s.bucket_size ∨ op.length ≤ s.bucket_size := by
    rcases hdisj0 with h | h
    · exact Or.inl h
    · right
      rw [hoplen, ← hds]
      exact h
  constructor
  · intro hdlf
    have hdl3 : s.drop_last = false := by rw [hdl2, hdlf]
    exact hflat.trans
      ((BucketBatchSampler.canon_flatten_perm hK0 hbs0 hdl3 op).trans hopperm)
  · intro hdlt
    have hdl3 : s.drop_last = true := by rw [hdl2, hdlt]
    have hsub2 : ((s.indexBatches op cps).flatten).Subperm (List.range dataset.length) :=
      (hflat.subperm).trans
        ((BucketBatchSampler.canon_flatten_subperm hK0 hbs0 hdl3 op).trans hopperm.subperm)
    refine ⟨subperm_nodup hsub2 (List.nodup_range _),
      fun i hi => by simpa using hsub2.subset hi, ?_⟩
    rw [hflat.length_eq,
      BucketBatchSampler.canon_flatten_len_drop hK0 hbs0 hdl3 op hdisj, hoplen]
    have h8 := Nat.mod_le dataset.length s.batch_size
    have h9 : dataset.length % s.batch_size < s.batch_size := Nat.mod_lt _ hbspos
    omega

/-- C2: for every dataset, `batch_size > 0`, `bucket_size_multiplier > 0`
and `drop_last`, a successfully constructed sampler reports length
`floor(N / batch_size)` when `drop_last` and `ceil(N / batch_size)` otherwise
(the formula never mentions the multiplier, so bucket boundaries cannot
change it), and one full pass over any valid draws emits exactly that many
batches. -/
theorem bucketBatchSampler_len_eq_emitted_count [LinearOrder β] [Inhabited α]
    {dataset : List α} {bs mult : Int} {key : α → β} {dl sh : Bool}
    {s : BucketBatchSampler α β} {op : List Nat} {cps : List (List Nat)}
    (hbs : 0 < bs) (hmult : 0 < mult)
    (hinit : BucketBatchSampler.init dataset bs key dl sh mult = Except.ok s)
    (hop : s.OuterDraw op) (hcps : s.ChunkDraw op cps) :
    s.len = (if dl then dataset.length / bs.toNat
        else (dataset.length + bs.toNat - 1) / bs.toNat) ∧
      (s.indexBatches op cps).length = s.len := by
  obtain ⟨hds, hkey, hdl2, hsh2, hbspos, hKpos, hKle, hdisj0, hNpos, hbseq⟩ :=
    BucketBatchSampler.init_ok_facts hinit
  have hbs0 : s.batch_size ≠ 0 := by omega
  have hK0 : s.bucket_size ≠ 0 := by omega
  have hoplen : op.length = dataset.length := by
    rw [BucketBatchSampler.outerDraw_length hop, hds]
  have hdisj : s.batch_size ∣ s.bucket_size ∨ op.length ≤ s.bucket_size := by
    rcases hdisj0 with h | h
    · exact Or.inl h
    · right
      rw [hoplen, ← hds]
      exact h
  constructor
  · unfold BucketBatchSampler.len
    rw [hds, hdl2, hbseq]
  · rw [(BucketBatchSampler.indexBatches_perm_canon hcps).length_eq,
      BucketBatchSampler.canon_length hK0 hbs0 op hdisj]
    unfold BucketBatchSampler.len
    rw [hoplen, hds]

/-- C9: every batch emitted by one full pass is non-empty and holds at most
`batch_size` indices; with `drop_last = true` every batch holds exactly
`batch_size` indices; and in any pass at most one emitted batch is smaller
than `batch_size` (only the final bucket can produce an undersized chunk,
because every other bucket's size `batch_size * bucket_size_multiplier` is a
multiple of `batch_size`). -/
theorem bucketBatchSampler_batch_size_facts [LinearOrder β] [Inhabited α]
    {dataset : List α} {bs mult : Int} {key : α → β} {dl sh : Bool}
    {s : BucketBatchSampler α β} {op : List Nat} {cps : List (List Nat)}
    (hbs : 0 < bs) (hmult : 0 < mult)
    (hinit : BucketBatchSampler.init dataset bs key dl sh mult = Except.ok s)
    (hop : s.OuterDraw op) (hcps : s.ChunkDraw op cps) :
    (∀ c ∈ s.indexBatches op cps, c ≠ [] ∧ c.length ≤ bs.toNat) ∧
      (dl = true → ∀ c ∈ s.indexBatches op cps, c.length = bs.toNat) ∧
      ((s.indexBatches op cps).countP (fun c => c.length < bs.toNat) ≤ 1) := by
  obtain ⟨hds, hkey, hdl2, hsh2, hbspos, hKpos, hKle, hdisj0, hNpos, hbseq⟩ :=
    BucketBatchSampler.init_ok_facts hinit
  have hbs0 : s.batch_size ≠ 0 := by omega
  have hK0 : s.bucket_size ≠ 0 := by omega
  have hoplen : op.length = dataset.length := by
    rw [BucketBatchSampler.outerDraw_length hop, hds]
  have hdisj : s.batch_size ∣ s.bucket_size ∨ op.length ≤ s.bucket_size := by
    rcases hdisj0 with h | h
    · exact Or.inl h
    · right
      rw [hoplen, ← hds]
      exact h
  have hpc := BucketBatchSampler.indexBatches_perm_canon hcps
  refine ⟨?_, ?_, ?_⟩
  · intro c hc
    obtain ⟨h1, h2, _⟩ := BucketBatchSampler.canon_mem_sizes hbs0 (hpc.subset hc)
    rw [← hbseq]
    exact ⟨h1, h2⟩
  · intro hdlt c hc
    have hdl3 : s.drop_last = true := by rw [hdl2, hdlt]
    obtain ⟨_, _, h3⟩ := BucketBatchSampler.canon_mem_sizes hbs0 (hpc.subset hc)
    rw [← hbseq]
    exact h3 hdl3
  · rw [← hbseq, List.Perm.countP_eq _ hpc]
    exact BucketBatchSampler.canon_countP_undersized hK0 hbs0 op hdisj

/-- C4 (counterexample to the claim as stated): with `shuffle = false` two
full iterations of the same sampler over the unchanged dataset `[5, 6]` need
not produce identical sequences: the per-bucket `SubsetRandomSampler` draws a
fresh chunk-order permutation on every pass, so the draws `[0, 1]` and
`[1, 0]` (both valid) emit the same two batches in different orders. -/
theorem bucketBatchSampler_shuffle_false_not_deterministic :
    ∃ s : BucketBatchSampler Nat Nat,
      BucketBatchSampler.init [5, 6] 1 (fun _ => 0) false false 2 = Except.ok s ∧
        s.shuffle = false ∧ s.OuterDraw [0, 1] ∧
        s.ChunkDraw [0, 1] [[0, 1]] ∧ s.ChunkDraw [0, 1] [[1, 0]] ∧
        s.indexBatches [0, 1] [[0, 1]] ≠ s.indexBatches [0, 1] [[1, 0]] := by
  refine ⟨⟨[5, 6], fun _ => 0, 1, false, false, 2⟩, rfl, rfl, ?_, ?_, ?_, ?_⟩
  · show ([0, 1] : List Nat) = List.range 2
    decide
  · exact List.Forall₂.cons (by decide) List.Forall₂.nil
  · exact List.Forall₂.cons (by decide) List.Forall₂.nil
  · decide

/-- C4 (amended theorem): with `shuffle = false` the outer order is fixed, so
any two full iterations of the same sampler emit the same batches up to
emission order: the outputs under any two valid chunk-order draws are
permutations of each other (each is a permutation of the canonical
bucket-by-bucket emission).  Identical sequences are guaranteed only when the
chunk-order draws coincide. -/
theorem bucketBatchSampler_passes_perm_invariant [LinearOrder β] [Inhabited α]
    {dataset : List α} {bs mult : Int} {key : α → β} {dl : Bool}
    {s : BucketBatchSampler α β} {op : List Nat} {cps cps2 : List (List Nat)}
    (hinit : BucketBatchSampler.init dataset bs key dl false mult = Except.ok s)
    (hop : s.OuterDraw op)
    (hcps : s.ChunkDraw op cps) (hcps2 : s.ChunkDraw op cps2) :
    (s.indexBatches op cps).Perm (s.indexBatches op cps2) :=
  (BucketBatchSampler.indexBatches_perm_canon hcps).trans
    (BucketBatchSampler.indexBatches_perm_canon hcps2).symm

/-- C3 (counterexample to the claim as stated): even with `shuffle = false`
and a no-op (constant) sort key, the chunks of a bucket's sorted view are not
emitted in their natural consecutive order: the emission order is drawn by a
`SubsetRandomSampler`, and the valid draw `[1, 0]` emits `[[1], [0]]` instead
of the natural `[[0], [1]]`, so the batches are not in original dataset
order. -/
theorem bucketBatchSampler_chunks_not_natural_order :
    ∃ s : BucketBatchSampler Nat Nat,
      BucketBatchSampler.init [10, 20] 1 (fun _ => 0) false false 2 = Except.ok s ∧
        s.shuffle = false ∧ s.OuterDraw [0, 1] ∧ s.ChunkDraw [0, 1] [[1, 0]] ∧
        s.indexBatches [0, 1] [[1, 0]] = [[1], [0]] ∧
        Torch.chunkList 1 (List.range 2) = [[0], [1]] ∧
        s.indexBatches [0, 1] [[1, 0]] ≠ Torch.chunkList 1 (List.range 2) := by
  refine ⟨⟨[10, 20], fun _ => 0, 1, false, false, 2⟩, rfl, rfl, ?_, ?_,
    by decide, by decide, by decide⟩
  · show ([0, 1] : List Nat) = List.range 2
    decide
  · exact List.Forall₂.cons (by decide) List.Forall₂.nil

/-- C3 (amended theorem): chunk emission order inside a bucket is randomized
regardless of `shuffle`; natural order is forced only when every bucket holds
a single chunk.  With `shuffle = false`, a no-op (constant) sort key and
`bucket_size_multiplier = 1` — so each bucket is one chunk — one full pass
emits exactly the consecutive chunks of `0, 1, ..., N-1`: batches appear in
strict original dataset order, each of size `batch_size` except possibly the
last. -/
theorem bucketBatchSampler_multiplier_one_natural_order [Inhabited α]
    {dataset : List α} {bs : Int} {s : BucketBatchSampler α Nat}
    {op : List Nat} {cps : List (List Nat)}
    (hbs : 0 < bs)
    (hinit : BucketBatchSampler.init dataset bs (fun _ => (0 : Nat)) false false 1
      = Except.ok s)
    (hop : s.OuterDraw op) (hcps : s.ChunkDraw op cps) :
    s.indexBatches op cps = Torch.chunkList bs.toNat (List.range dataset.length) ∧
      (s.indexBatches op cps).flatten = List.range dataset.length := by
  obtain ⟨hds, hkey, hdl2, hsh2, hbspos, hKpos, hKle, hdisj0, hNpos, hbseq⟩ :=
    BucketBatchSampler.init_ok_facts hinit
  obtain ⟨hbs2, hmin, hseq⟩ := BucketBatchSampler.init_ok_struct hinit
  have hKeq : s.bucket_size = (min (bs * 1) (dataset.length : Int)).toNat := by rw [hseq]
  have hbs0 : s.batch_size ≠ 0 := by omega
  have hK0 : s.bucket_size ≠ 0 := by omega
  have hool : op = List.range dataset.length := by
    have h := hop
    unfold BucketBatchSampler.OuterDraw at h
    rw [hsh2] at h
    simp only [Bool.false_eq_true, if_false] at h
    rw [h, hds]
  have hKle_bs : s.bucket_size ≤ bs.toNat := by omega
  have hchunks : ∀ b : List Nat, b ≠ [] → b.length ≤ bs.toNat →
      s.bucketChunks b = [List.range b.length] := by
    intro b hne hle
    unfold BucketBatchSampler.bucketChunks Torch.batchSampler
    rw [hdl2]
    simp only [Bool.false_eq_true, if_false]
    have hsorted : SortedSampler.sortedIndexes s.sort_key
        (b.map (fun i => s.dataset.getD i default)) = List.range b.length := by
      rw [hkey]
      refine (SortedSampler.sortedIndexes_eq_range_of_sorted _ ?_).trans
        (by rw [List.length_map])
      rw [List.pairwise_iff_getElem]
      intro i j hi hj hij
      simp
    rw [hsorted]
    refine Torch.chunkList_of_length_le (by omega) ?_
      (by simp only [List.length_range, hbseq]; exact hle)
    have hlen : 0 < b.length := List.length_pos.mpr hne
    simp only [ne_eq, List.range_eq_nil]
    omega
  have hmain : ∀ (Bs cps2 : List (List Nat)),
      List.Forall₂ (fun b σ => σ.Perm (List.range (s.bucketChunks b).length)) Bs cps2 →
      (∀ b ∈ Bs, b ≠ [] ∧ b.length ≤ bs.toNat) →
      ((Bs.zip cps2).flatMap (fun bp =>
        (Torch.subsetRandomSampler bp.2 (s.bucketChunks bp.1)).map
          (fun batch => batch.map (fun i => bp.1.getD i 0)))) = Bs := by
    intro Bs cps2 h
    induction h with
    | nil =>
      intro _
      rfl
    | @cons b σ Bs2 cps3 hbσ hrest ih =>
      intro hmem
      obtain ⟨hne, hle⟩ := hmem b (by simp)
      rw [List.zip_cons_cons, List.flatMap_cons]
      have hcb := hchunks b hne hle
      have hσ : σ = [0] := by
        rw [hcb] at hbσ
        simp only [List.length_cons, List.length_nil] at hbσ
        rw [show List.range 1 = [0] from rfl] at hbσ
        exact hbσ.eq_singleton
      rw [hcb, hσ]
      have hsrs : Torch.subsetRandomSampler [0] [List.range b.length]
          = [List.range b.length] := rfl
      rw [hsrs, ih (fun c hc => hmem c (by simp [hc]))]
      simp only [List.map_cons, List.map_nil, map_getD_range b 0]
      rfl
  have heq : s.indexBatches op cps = Torch.chunkList bs.toNat (List.range dataset.length) := by
    have h1 : s.indexBatches op cps = Torch.chunkList s.bucket_size op := by
      unfold BucketBatchSampler.indexBatches
      refine hmain _ cps hcps ?_
      intro b hb
      obtain ⟨h2, h3⟩ := Torch.mem_chunkList hK0 hb
      exact ⟨h2, le_trans h3 hKle_bs⟩
    rw [h1, hool]
    rcases le_or_lt bs.toNat dataset.length with hcase | hcase
    · have hKbs : s.bucket_size = bs.toNat := by omega
      rw [hKbs]
    · have hKN : s.bucket_size = dataset.length := by omega
      have hrne : List.range dataset.length ≠ [] := by
        simp only [ne_eq, List.range_eq_nil]
        omega
      rw [hKN, Torch.chunkList_of_length_le (by omega) hrne (by simp),
        Torch.chunkList_of_length_le (by omega) hrne (by simp; omega)]
  exact ⟨heq, by rw [heq, Torch.flatten_chunkList (by omega)]⟩

/-- C1 witness: dataset of 3 items, `batch_size = 2`, `bucket_size_multiplier
= 1`, `drop_last = false`: the valid pass over draws `[0,1,2]`, `[[0],[0]]`
covers every index exactly once. -/
theorem bucketBatchSampler_full_pass_cover_witness :
    (((⟨[10, 20, 30], identity, 2, false, false, 2⟩
        : BucketBatchSampler Nat Nat).indexBatches
      [0, 1, 2] [[0], [0]]).flatten).Perm (List.range 3) := by
  have hinit : BucketBatchSampler.init [10, 20, 30] (2 : Int) identity false false 1
      = Except.ok (⟨[10, 20, 30], identity, 2, false, false, 2⟩
        : BucketBatchSampler Nat Nat) := rfl
  have hop : (⟨[10, 20, 30], identity, 2, false, false, 2⟩
      : BucketBatchSampler Nat Nat).OuterDraw [0, 1, 2] := by
    show ([0, 1, 2] : List Nat) = List.range 3
    decide
  have hcps : (⟨[10, 20, 30], identity, 2, false, false, 2⟩
      : BucketBatchSampler Nat Nat).ChunkDraw [0, 1, 2] [[0], [0]] :=
    List.Forall₂.cons (by decide) (List.Forall₂.cons (by decide) List.Forall₂.nil)
  exact (bucketBatchSampler_full_pass_cover (by decide) (by decide) hinit hop hcps).1 rfl

/-- C2 witness: dataset of 5 items, `batch_size = 2`, `drop_last = true`: the
reported length is `5 / 2 = 2` and the pass over valid draws emits exactly 2
batches. -/
theorem bucketBatchSampler_len_eq_emitted_count_witness :
    (⟨[1, 2, 3, 4, 5], identity, 2, true, false, 2⟩ : BucketBatchSampler Nat Nat).len
        = (if true then ([1, 2, 3, 4, 5] : List Nat).length / (2 : Int).toNat
          else (([1, 2, 3, 4, 5] : List Nat).length + (2 : Int).toNat - 1)
            / (2 : Int).toNat) ∧
      ((⟨[1, 2, 3, 4, 5], identity, 2, true, false, 2⟩
          : BucketBatchSampler Nat Nat).indexBatches
        [0, 1, 2, 3, 4] [[0], [0], []]).length
        = (⟨[1, 2, 3, 4, 5], identity, 2, true, false, 2⟩
          : BucketBatchSampler Nat Nat).len := by
  have hinit : BucketBatchSampler.init [1, 2, 3, 4, 5] (2 : Int) identity true false 1
      = Except.ok (⟨[1, 2, 3, 4, 5], identity, 2, true, false, 2⟩
        : BucketBatchSampler Nat Nat) := rfl
  have hop : (⟨[1, 2, 3, 4, 5], identity, 2, true, false, 2⟩
      : BucketBatchSampler Nat Nat).OuterDraw [0, 1, 2, 3, 4] := by
    show ([0, 1, 2, 3, 4] : List Nat) = List.range 5
    decide
  have hcps : (⟨[1, 2, 3, 4, 5], identity, 2, true, false, 2⟩
      : BucketBatchSampler Nat Nat).ChunkDraw [0, 1, 2, 3, 4] [[0], [0], []] :=
    List.Forall₂.cons (by decide) (List.Forall₂.cons (by decide)
      (List.Forall₂.cons (by decide) List.Forall₂.nil))
  exact bucketBatchSampler_len_eq_emitted_count (by decide) (by decide) hinit hop hcps

/-- C9 witness: dataset of 3 items, `batch_size = 2`, multiplier 2 (one
bucket of 3), `drop_last = false`, chunk draw `[1, 0]`: all batch-size facts
hold on this pass. -/
theorem bucketBatchSampler_batch_size_facts_witness :
    (∀ c ∈ (⟨[7, 8, 9], identity, 2, false, false, 3⟩
        : BucketBatchSampler Nat Nat).indexBatches [0, 1, 2] [[1, 0]],
      c ≠ [] ∧ c.length ≤ (2 : Int).toNat) ∧
      (false = true → ∀ c ∈ (⟨[7, 8, 9], identity, 2, false, false, 3⟩
          : BucketBatchSampler Nat Nat).indexBatches [0, 1, 2] [[1, 0]],
        c.length = (2 : Int).toNat) ∧
      (((⟨[7, 8, 9], identity, 2, false, false, 3⟩
          : BucketBatchSampler Nat Nat).indexBatches [0, 1, 2] [[1, 0]]).countP
        (fun c => c.length < (2 : Int).toNat) ≤ 1) := by
  have hinit : BucketBatchSampler.init [7, 8, 9] (2 : Int) identity false false 2
      = Except.ok (⟨[7, 8, 9], identity, 2, false, false, 3⟩
        : BucketBatchSampler Nat Nat) := rfl
  have hop : (⟨[7, 8, 9], identity, 2, false, false, 3⟩
      : BucketBatchSampler Nat Nat).OuterDraw [0, 1, 2] := by
    show ([0, 1, 2] : List Nat) = List.range 3
    decide
  have hcps : (⟨[7, 8, 9], identity, 2, false, false, 3⟩
      : BucketBatchSampler Nat Nat).ChunkDraw [0, 1, 2] [[1, 0]] :=
    List.Forall₂.cons (by decide) List.Forall₂.nil
  exact bucketBatchSampler_batch_size_facts (by decide) (by decide) hinit hop hcps

/-- C3 witness (for the amended theorem): 3 items, `batch_size = 2`,
multiplier 1, constant key, `shuffle = drop_last = false`: the pass is
exactly the consecutive chunks `[[0, 1], [2]]` of `0, 1, 2`. -/
theorem bucketBatchSampler_multiplier_one_natural_order_witness :
    (⟨[5, 5, 5], fun _ => 0, 2, false, false, 2⟩
        : BucketBatchSampler Nat Nat).indexBatches [0, 1, 2] [[0], [0]]
        = Torch.chunkList (2 : Int).toNat (List.range 3) ∧
      ((⟨[5, 5, 5], fun _ => 0, 2, false, false, 2⟩
          : BucketBatchSampler Nat Nat).indexBatches [0, 1, 2] [[0], [0]]).flatten
        = List.range 3 := by
  have hinit : BucketBatchSampler.init [5, 5, 5] (2 : Int) (fun _ => (0 : Nat)) false false 1
      = Except.ok (⟨[5, 5, 5], fun _ => 0, 2, false, false, 2⟩
        : BucketBatchSampler Nat Nat) := rfl
  have hop : (⟨[5, 5, 5], fun _ => 0, 2, false, false, 2⟩
      : BucketBatchSampler Nat Nat).OuterDraw [0, 1, 2] := by
    show ([0, 1, 2] : List Nat) = List.range 3
    decide
  have hcps : (⟨[5, 5, 5], fun _ => 0, 2, false, false, 2⟩
      : BucketBatchSampler Nat Nat).ChunkDraw [0, 1, 2] [[0], [0]] :=
    List.Forall₂.cons (by decide) (List.Forall₂.cons (by decide) List.Forall₂.nil)
  exact bucketBatchSampler_multiplier_one_natural_order (by decide) hinit hop hcps

/-- C4 witness (for the amended theorem): with `shuffle = false` on a 2-item
dataset, the passes under chunk draws `[[0, 1]]` and `[[1, 0]]` are
permutations of each other. -/
theorem bucketBatchSampler_passes_perm_invariant_witness :
    ((⟨[3, 4], fun _ => 0, 1, false, false, 2⟩
        : BucketBatchSampler Nat Nat).indexBatches [0, 1] [[0, 1]]).Perm
      ((⟨[3, 4], fun _ => 0, 1, false, false, 2⟩
        : BucketBatchSampler Nat Nat).indexBatches [0, 1] [[1, 0]]) := by
  have hinit : BucketBatchSampler.init [3, 4] (1 : Int) (fun _ => (0 : Nat)) false false 2
      = Except.ok (⟨[3, 4], fun _ => 0, 1, false, false, 2⟩
        : BucketBatchSampler Nat Nat) := rfl
  have hop : (⟨[3, 4], fun _ => 0, 1, false, false, 2⟩
      : BucketBatchSampler Nat Nat).OuterDraw [0, 1] := by
    show ([0, 1] : List Nat) = List.range 2
    decide
  have hcps : (⟨[3, 4], fun _ => 0, 1, false, false, 2⟩
      : BucketBatchSampler Nat Nat).ChunkDraw [0, 1] [[0, 1]] :=
    List.Forall₂.cons (by decide) List.Forall₂.nil
  have hcps2 : (⟨[3, 4], fun _ => 0, 1, false, false, 2⟩
      : BucketBatchSampler Nat Nat).ChunkDraw [0, 1] [[1, 0]] :=
    List.Forall₂.cons (by decide) List.Forall₂.nil
  exact bucketBatchSampler_passes_perm_invariant hinit hop hcps hcps2

/-- C2 (counterexample to the claim as stated): at `N = 0` no length is
reported at all, so the "(0 when N = 0)" clause cannot hold: with
`batch_size = 2`, multiplier 1 and `drop_last = true` over the empty dataset,
construction itself raises `ValueError`, and no sampler exists to report a
length. -/
theorem bucketBatchSampler_len_empty_dataset_counterexample :
    BucketBatchSampler.init ([] : List Int) 2 identity true false 1
      = Except.error "batch_size should be a positive integer value" := rfl

end DataLoader
